import Mathlib

namespace Pypower

/-- A complex number with rational real and imaginary parts. The source
operates on machine complex numbers; this exact-arithmetic model replaces
floating point by `ℚ`, keeping all ring and field operations exact. -/
@[ext]
structure CC where
  re : ℚ
  im : ℚ
deriving DecidableEq

namespace CC

instance : Zero CC := ⟨⟨0, 0⟩⟩
instance : One CC := ⟨⟨1, 0⟩⟩
instance : Add CC := ⟨fun z w => ⟨z.re + w.re, z.im + w.im⟩⟩
instance : Neg CC := ⟨fun z => ⟨-z.re, -z.im⟩⟩
instance : Mul CC := ⟨fun z w => ⟨z.re * w.re - z.im * w.im, z.re * w.im + z.im * w.re⟩⟩

/-- The squared magnitude `re² + im²` of a complex number. -/
def normSq (z : CC) : ℚ := z.re * z.re + z.im * z.im

instance : Inv CC := ⟨fun z => ⟨z.re / normSq z, -z.im / normSq z⟩⟩
instance : Div CC := ⟨fun z w => z * w⁻¹⟩

@[simp] theorem zero_re : (0 : CC).re = 0 := rfl
@[simp] theorem zero_im : (0 : CC).im = 0 := rfl
@[simp] theorem one_re : (1 : CC).re = 1 := rfl
@[simp] theorem one_im : (1 : CC).im = 0 := rfl
@[simp] theorem add_re (z w : CC) : (z + w).re = z.re + w.re := rfl
@[simp] theorem add_im (z w : CC) : (z + w).im = z.im + w.im := rfl
@[simp] theorem neg_re (z : CC) : (-z).re = -z.re := rfl
@[simp] theorem neg_im (z : CC) : (-z).im = -z.im := rfl
@[simp] theorem mul_re (z w : CC) : (z * w).re = z.re * w.re - z.im * w.im := rfl
@[simp] theorem mul_im (z w : CC) : (z * w).im = z.re * w.im + z.im * w.re := rfl
@[simp] theorem inv_re (z : CC) : (z⁻¹).re = z.re / normSq z := rfl
@[simp] theorem inv_im (z : CC) : (z⁻¹).im = -z.im / normSq z := rfl

instance addCommGroup : AddCommGroup CC := by
  refine
  { add := (· + ·)
    zero := (0 : CC)
    sub := fun z w => z + -w
    neg := Neg.neg
    nsmul := @nsmulRec CC ⟨0⟩ ⟨(· + ·)⟩
    zsmul := @zsmulRec CC ⟨0⟩ ⟨(· + ·)⟩ ⟨Neg.neg⟩ (@nsmulRec CC ⟨0⟩ ⟨(· + ·)⟩)
    add_assoc := ?_
    zero_add := ?_
    add_zero := ?_
    neg_add_cancel := ?_
    add_comm := ?_ } <;>
  intros <;>
  ext <;>
  simp <;>
  ring

@[simp] theorem sub_re (z w : CC) : (z - w).re = z.re - w.re := by
  show z.re + -w.re = z.re - w.re
  ring

@[simp] theorem sub_im (z w : CC) : (z - w).im = z.im - w.im := by
  show z.im + -w.im = z.im - w.im
  ring

instance addGroupWithOne : AddGroupWithOne CC :=
  { CC.addCommGroup with one := 1 }

@[simp] theorem natCast_re (n : ℕ) : (n : CC).re = n := by
  induction n with
  | zero => simp [Nat.cast_zero]
  | succ n ih => rw [Nat.cast_succ, add_re, ih, one_re, Nat.cast_succ]

@[simp] theorem natCast_im (n : ℕ) : (n : CC).im = 0 := by
  induction n with
  | zero => simp [Nat.cast_zero]
  | succ n ih => rw [Nat.cast_succ, add_im, ih, one_im, add_zero]

instance commRing : CommRing CC := by
  refine
  { CC.addGroupWithOne with
    mul := (· * ·)
    npow := @npowRec CC ⟨1⟩ ⟨(· * ·)⟩
    add_comm := ?_
    left_distrib := ?_
    right_distrib := ?_
    zero_mul := ?_
    mul_zero := ?_
    mul_assoc := ?_
    one_mul := ?_
    mul_one := ?_
    mul_comm := ?_ } <;>
  intros <;>
  ext <;>
  simp <;>
  ring

@[simp] theorem re_ofNat (n : ℕ) [n.AtLeastTwo] :
    (OfNat.ofNat n : CC).re = (OfNat.ofNat n : ℚ) := by
  rw [← Nat.cast_ofNat, natCast_re, Nat.cast_ofNat]

@[simp] theorem im_ofNat (n : ℕ) [n.AtLeastTwo] :
    (OfNat.ofNat n : CC).im = 0 := by
  rw [← Nat.cast_ofNat, natCast_im]

theorem normSq_eq_zero_iff {z : CC} : normSq z = 0 ↔ z = 0 := by
  constructor
  · intro hn
    simp only [normSq] at hn
    have h1 : z.re * z.re = 0 := by
      nlinarith [mul_self_nonneg z.re, mul_self_nonneg z.im]
    have h2 : z.im * z.im = 0 := by
      nlinarith [mul_self_nonneg z.re, mul_self_nonneg z.im]
    ext
    · exact mul_self_eq_zero.mp h1
    · exact mul_self_eq_zero.mp h2
  · rintro rfl
    simp [normSq]

theorem normSq_ne_zero {z : CC} (h : z ≠ 0) : normSq z ≠ 0 :=
  fun hn => h (normSq_eq_zero_iff.mp hn)

instance field : Field CC :=
  { CC.commRing with
    inv := Inv.inv
    div := Div.div
    div_eq_mul_inv := fun _ _ => rfl
    exists_pair_ne := ⟨0, 1, by intro h; have h2 := congrArg CC.re h; simp at h2⟩
    mul_inv_cancel := fun a h => by
      have hn : a.re * a.re + a.im * a.im ≠ 0 := by
        simpa [normSq] using normSq_ne_zero h
      ext
      · simp only [mul_re, inv_re, inv_im, normSq]
        field_simp
      · simp only [mul_im, inv_re, inv_im, normSq]
        field_simp
        ring
    inv_zero := by ext <;> simp [normSq]
    nnqsmul := _
    qsmul := _ }

/-- Complex conjugate. -/
def conj (z : CC) : CC := ⟨z.re, -z.im⟩

@[simp] theorem conj_re (z : CC) : (conj z).re = z.re := rfl
@[simp] theorem conj_im (z : CC) : (conj z).im = -z.im := rfl

theorem conj_zero : conj 0 = 0 := by ext <;> simp
theorem conj_add (z w : CC) : conj (z + w) = conj z + conj w := by ext <;> simp <;> ring
theorem conj_sub (z w : CC) : conj (z - w) = conj z - conj w := by ext <;> simp <;> ring
theorem conj_mul (z w : CC) : conj (z * w) = conj z * conj w := by ext <;> simp <;> ring

/-- `conj` as an additive monoid homomorphism, used to push it through sums. -/
def conjHom : CC →+ CC where
  toFun := conj
  map_zero' := conj_zero
  map_add' := conj_add

theorem conj_sum {α : Type} (s : Finset α) (f : α → CC) :
    conj (∑ x ∈ s, f x) = ∑ x ∈ s, conj (f x) :=
  map_sum conjHom f s

/-- Embedding of a real (here: rational) scalar as a complex number, as numpy
does implicitly when a real array participates in complex arithmetic. -/
def ofQ (q : ℚ) : CC := ⟨q, 0⟩

@[simp] theorem ofQ_re (q : ℚ) : (ofQ q).re = q := rfl
@[simp] theorem ofQ_im (q : ℚ) : (ofQ q).im = 0 := rfl

/-- The imaginary unit, `1j` in the source. -/
def I : CC := ⟨0, 1⟩

@[simp] theorem I_re : I.re = 0 := rfl
@[simp] theorem I_im : I.im = 1 := rfl

end CC

open CC

/-- Modelled: cosine of an angle given in degrees, as used by the source's
`exp(1j * pi / 180 * shift)`. Over exact rationals the cosine is representable
only at the quadrant angles (multiples of 90°), which are modelled exactly;
at any other angle the true value is irrational and this function returns 0.
No theorem in this development depends on the value at a non-quadrant angle. -/
def cosDeg (s : ℚ) : ℚ :=
  if s - 360 * ⌊s / 360⌋ = 0 then 1
  else if s - 360 * ⌊s / 360⌋ = 90 then 0
  else if s - 360 * ⌊s / 360⌋ = 180 then -1
  else 0

/-- Modelled: sine of an angle given in degrees; same caveats as `cosDeg`. -/
def sinDeg (s : ℚ) : ℚ :=
  if s - 360 * ⌊s / 360⌋ = 90 then 1
  else if s - 360 * ⌊s / 360⌋ = 270 then -1
  else 0

/-- The unit phasor `exp(1j * pi / 180 * shift)` applied to a phase-shift
angle in degrees (source line `tap = tap * exp(1j * pi / 180 * branch[:, SHIFT])`). -/
def shiftPhasor (s : ℚ) : CC := ⟨cosDeg s, sinDeg s⟩

/-- Modelled: square root of a nonnegative rational, exact whenever numerator
and denominator are perfect squares (in particular `ratSqrt 0 = 0`,
`ratSqrt 1 = 1`); the true square root is irrational otherwise. It is used
only inside `cabs`, and only the exactly-representable cases are relied on. -/
def ratSqrt (q : ℚ) : ℚ := (Nat.sqrt q.num.toNat : ℚ) / (Nat.sqrt q.den : ℚ)

/-- The complex magnitude `abs(z) = sqrt(re² + im²)` (numpy `abs` on a complex
array), via `ratSqrt`; exact whenever the norm-square has a rational root. -/
def cabs (z : CC) : ℚ := ratSqrt (normSq z)

/-- One row of the bus table, restricted to the columns `makeYbus` reads:
the bus number `BUS_I`, shunt conductance `GS` and shunt susceptance `BS`. -/
structure Bus where
  busI : ℚ
  gs : ℚ
  bs : ℚ

/-- One row of the branch table, restricted to the columns the source reads:
`F_BUS`, `T_BUS`, `BR_R`, `BR_X`, `BR_B`, `BR_STATUS`, `TAP`, `SHIFT`.
The from/to bus numbers are modelled as natural-number column indices. -/
structure Branch where
  fbus : ℕ
  tbus : ℕ
  r : ℚ
  x : ℚ
  b : ℚ
  status : ℚ
  tap : ℚ
  shift : ℚ

/-- `Ys = stat / (branch[:, BR_R] + 1j * branch[:, BR_X])`: series admittance
of one branch. The division is unguarded in the source; at `R = X = 0` it is
a division by zero (non-finite in the source's IEEE arithmetic, the junk
value `0` in this exact model) — no error is raised either way. -/
def seriesY (br : Branch) : CC := ofQ br.status / ⟨br.r, br.x⟩

/-- `Bc = stat * branch[:, BR_B]`: line charging susceptance of one branch. -/
def chargeBc (br : Branch) : ℚ := br.status * br.b

/-- The effective complex tap ratio of one branch: `tap = ones(nl);
tap[nonzero(branch[:, TAP])] = branch[nonzero, TAP];
tap = tap * exp(1j * pi / 180 * branch[:, SHIFT])`. -/
def tapRatio (br : Branch) : CC :=
  ofQ (if br.tap ≠ 0 then br.tap else 1) * shiftPhasor br.shift

/-- `Ytt = Ys + 1j * Bc / 2`. -/
def Ytt (br : Branch) : CC := seriesY br + I * ofQ (chargeBc br) / 2

/-- `Yff = Ytt / (tap * conj(tap))`. -/
def Yff (br : Branch) : CC := Ytt br / (tapRatio br * conj (tapRatio br))

/-- `Yft = -Ys / conj(tap)`. -/
def Yft (br : Branch) : CC := -seriesY br / conj (tapRatio br)

/-- `Ytf = -Ys / tap`. -/
def Ytf (br : Branch) : CC := -seriesY br / tapRatio br

/-- `Ysh = (bus[:, GS] + 1j * bus[:, BS]) / baseMVA`: per-bus shunt admittance
converted to per-unit. -/
def Ysh (baseMVA : ℚ) (bu : Bus) : CC := ⟨bu.gs, bu.bs⟩ / ofQ baseMVA

/-- `csr_matrix((val, (row, col)), (m, n))`: the m×n matrix whose `(i, j)`
entry is the sum of all coordinate-list values with coordinates `(i, j)`
(scipy sums duplicate coordinates). Entries whose coordinates fall outside
the shape contribute nowhere. -/
def csr {ι : Type} [Fintype ι] (m n : ℕ) (row col : ι → ℕ) (val : ι → CC) :
    Matrix (Fin m) (Fin n) CC :=
  Matrix.of fun i j => ∑ k, if row k = i.val ∧ col k = j.val then val k else 0

/-- The source's order check `any(bus[:, BUS_I] != range(nb))`; when true the
source writes `'buses must appear in order by bus number'` to stderr — and
then continues with assembly regardless. -/
def busOrderWarn {nb : ℕ} (bus : Fin nb → Bus) : Bool :=
  decide (∃ i : Fin nb, (bus i).busI ≠ (i.val : ℚ))

/-- `Cf = csr_matrix((ones(nl), (range(nl), f)), (nl, nb))`. -/
def Cf (nb : ℕ) {nl : ℕ} (branch : Fin nl → Branch) : Matrix (Fin nl) (Fin nb) CC :=
  csr nl nb (fun l => l.val) (fun l => (branch l).fbus) (fun _ => 1)

/-- `Ct = csr_matrix((ones(nl), (range(nl), t)), (nl, nb))`. -/
def Ct (nb : ℕ) {nl : ℕ} (branch : Fin nl → Branch) : Matrix (Fin nl) (Fin nb) CC :=
  csr nl nb (fun l => l.val) (fun l => (branch l).tbus) (fun _ => 1)

/-- `Yf = csr_matrix((r_[Yff, Yft], (r_[range(nl), range(nl)], r_[f, t])), (nl, nb))`:
each branch row carries `Yff` at its from-bus column and `Yft` at its to-bus
column, duplicates (self-loop branches) summing. -/
def Yfm (nb : ℕ) {nl : ℕ} (branch : Fin nl → Branch) : Matrix (Fin nl) (Fin nb) CC :=
  csr nl nb (Sum.elim (fun l : Fin nl => l.val) (fun l : Fin nl => l.val))
    (Sum.elim (fun l => (branch l).fbus) (fun l => (branch l).tbus))
    (Sum.elim (fun l => Yff (branch l)) (fun l => Yft (branch l)))

/-- `Yt = csr_matrix((r_[Ytf, Ytt], (r_[range(nl), range(nl)], r_[f, t])), (nl, nb))`. -/
def Ytm (nb : ℕ) {nl : ℕ} (branch : Fin nl → Branch) : Matrix (Fin nl) (Fin nb) CC :=
  csr nl nb (Sum.elim (fun l : Fin nl => l.val) (fun l : Fin nl => l.val))
    (Sum.elim (fun l => (branch l).fbus) (fun l => (branch l).tbus))
    (Sum.elim (fun l => Ytf (branch l)) (fun l => Ytt (branch l)))

/-- `csr_matrix((Ysh, (range(nb), range(nb))), (nb, nb))`: the shunt diagonal. -/
def YshDiag (baseMVA : ℚ) {nb : ℕ} (bus : Fin nb → Bus) : Matrix (Fin nb) (Fin nb) CC :=
  csr nb nb (fun i => i.val) (fun i => i.val) (fun i => Ysh baseMVA (bus i))

/-- The values `makeYbus` produces: the warning flag (its stderr write) and
the three returned matrices. -/
structure YbusResult (nb nl : ℕ) where
  warning : Bool
  Ybus : Matrix (Fin nb) (Fin nb) CC
  Yf : Matrix (Fin nl) (Fin nb) CC
  Yt : Matrix (Fin nl) (Fin nb) CC

/-- `makeYbus(baseMVA, bus, branch)`: builds the bus admittance matrix and the
branch admittance matrices, `Ybus = Cf.T * Yf + Ct.T * Yt + diag(Ysh)`.
The bus-order check only ever produces the stderr warning modelled by
`warning`; assembly proceeds unconditionally. -/
def makeYbus (baseMVA : ℚ) {nb nl : ℕ} (bus : Fin nb → Bus)
    (branch : Fin nl → Branch) : YbusResult nb nl where
  warning := busOrderWarn bus
  Ybus := Matrix.transpose (Cf nb branch) * Yfm nb branch
    + Matrix.transpose (Ct nb branch) * Ytm nb branch + YshDiag baseMVA bus
  Yf := Yfm nb branch
  Yt := Ytm nb branch

/-- The entrywise conjugate of a matrix, numpy's `conj` on a matrix. -/
def conjM {m n : Type} (M : Matrix m n CC) : Matrix m n CC := M.map conj

/-- `V / abs(V)`: each voltage normalized to unit magnitude. At a
zero-magnitude entry the source's division is `0/0` (NaN in IEEE arithmetic,
the junk value `0` in this exact model) — no error is raised either way. -/
def Vnorm {n : ℕ} (V : Fin n → CC) : Fin n → CC := fun i => V i / ofQ (cabs (V i))

/-- `dSbus_dV(Ybus, V)`: partial derivatives of the complex bus power
injections with respect to voltage magnitude (first component) and voltage
angle (second component):
`dS_dVm = diagV * conj(Ybus * diagVnorm) + conj(diagIbus) * diagVnorm`,
`dS_dVa = 1j * diagV * conj(diagIbus - Ybus * diagV)`. -/
def dSbus_dV {n : ℕ} (Ybus : Matrix (Fin n) (Fin n) CC) (V : Fin n → CC) :
    Matrix (Fin n) (Fin n) CC × Matrix (Fin n) (Fin n) CC :=
  let Ibus := Ybus.mulVec V
  let diagV := Matrix.diagonal V
  let diagIbus := Matrix.diagonal Ibus
  let diagVnorm := Matrix.diagonal (Vnorm V)
  (diagV * conjM (Ybus * diagVnorm) + conjM diagIbus * diagVnorm,
   I • (diagV * conjM (diagIbus - Ybus * diagV)))

/-- The four-term scatter contribution of one branch to entry `(p, q)` of the
bus admittance matrix: `Yff` at `(from, from)`, `Yft` at `(from, to)`,
`Ytf` at `(to, from)`, `Ytt` at `(to, to)`. -/
def branchContrib (br : Branch) (p q : ℕ) : CC :=
  (if br.fbus = p ∧ br.fbus = q then Yff br else 0)
    + (if br.fbus = p ∧ br.tbus = q then Yft br else 0)
    + (if br.tbus = p ∧ br.fbus = q then Ytf br else 0)
    + (if br.tbus = p ∧ br.tbus = q then Ytt br else 0)

/-- The admittance matrix described by the spec's scatter-add formulation:
each branch's four terms are accumulated additively into the
`(from, from)`, `(from, to)`, `(to, from)`, `(to, to)` entries, and the
shunt diagonal is added. -/
def scatterYbus (baseMVA : ℚ) {nb nl : ℕ} (bus : Fin nb → Bus)
    (branch : Fin nl → Branch) : Matrix (Fin nb) (Fin nb) CC :=
  Matrix.of fun p q =>
    (∑ l, branchContrib (branch l) p.val q.val)
      + if p = q then Ysh baseMVA (bus p) else 0

/-- The effective tap ratio exactly as claim C1 words it: the branch's tap
field with 1.0 substituted when the stored value is zero, multiplied by the
unit phasor of the shift angle. -/
def tapClaim (br : Branch) : CC :=
  ofQ (if br.tap = 0 then 1 else br.tap) * shiftPhasor br.shift

/-- The dS/dVm formula exactly as claim C2 words it:
`diag(V) * conj(Ybus * diag(V/|V|)) + conj(diag(Ybus*V)) * diag(V/|V|)`. -/
def dSdVmClaim {n : ℕ} (Ybus : Matrix (Fin n) (Fin n) CC) (V : Fin n → CC) :
    Matrix (Fin n) (Fin n) CC :=
  Matrix.diagonal V * conjM (Ybus * Matrix.diagonal (fun i => V i / ofQ (cabs (V i))))
    + conjM (Matrix.diagonal (Ybus.mulVec V))
      * Matrix.diagonal (fun i => V i / ofQ (cabs (V i)))

/-- The dS/dVa formula exactly as claim C2 words it:
`j * diag(V) * conj(diag(Ybus*V) - Ybus * diag(V))`. -/
def dSdVaClaim {n : ℕ} (Ybus : Matrix (Fin n) (Fin n) CC) (V : Fin n → CC) :
    Matrix (Fin n) (Fin n) CC :=
  I • (Matrix.diagonal V
    * conjM (Matrix.diagonal (Ybus.mulVec V) - Ybus * Matrix.diagonal V))

/-- Concrete aligned two-bus table with nonzero shunts (witness input). -/
def busW2 : Fin 2 → Bus := fun i => ⟨(i.val : ℚ), 3, 4⟩

/-- Concrete aligned two-bus table with zero shunts (witness input). -/
def busZ2 : Fin 2 → Bus := fun i => ⟨(i.val : ℚ), 0, 0⟩

/-- Concrete misaligned three-bus table, identifiers `[0, 2, 1]`. -/
def busMis3 : Fin 3 → Bus := ![⟨0, 0, 0⟩, ⟨2, 0, 0⟩, ⟨1, 0, 0⟩]

/-- Concrete single in-service branch `0 → 1` with `R = X = 1`, `tap = 1`,
`shift = 0` (witness input). -/
def brW1 : Fin 1 → Branch := fun _ => ⟨0, 1, 1, 1, 0, 1, 1, 0⟩

/-- Concrete single out-of-service branch (`status = 0`) with nonzero
impedance, charging and tap (witness input). -/
def brStat0 : Fin 1 → Branch := fun _ => ⟨0, 1, 1, 1, 6, 0, 7, 0⟩

/-- Concrete single in-service branch with `R = X = 0` (witness input). -/
def brRX0 : Fin 1 → Branch := fun _ => ⟨0, 1, 0, 0, 0, 1, 0, 0⟩

/-- Concrete single out-of-service branch (`status = 0`) that also has
`R = X = 0` (counterexample input). -/
def brS0RX0 : Fin 1 → Branch := fun _ => ⟨0, 1, 0, 0, 0, 0, 0, 0⟩

/-- Concrete 1×1 admittance matrix (witness input). -/
def YbW1 : Matrix (Fin 1) (Fin 1) CC := Matrix.of fun _ _ => ⟨2, 1⟩

/-- Concrete nonzero one-entry voltage vector (witness input). -/
def VW1 : Fin 1 → CC := fun _ => ⟨1, 0⟩

/-- Concrete one-entry voltage vector whose entry is zero. -/
def VZ1 : Fin 1 → CC := fun _ => 0

theorem sum_fin_ite {nl : ℕ} (l : Fin nl) (P : Fin nl → Prop) [DecidablePred P]
    (f : Fin nl → CC) :
    (∑ k : Fin nl, if k.val = l.val ∧ P k then f k else 0)
      = if P l then f l else 0 := by
  rw [Finset.sum_eq_single l]
  · simp
  · intro k _ hk
    apply if_neg
    rintro ⟨h1, -⟩
    exact hk (Fin.val_injective h1)
  · intro h
    exact absurd (Finset.mem_univ l) h

theorem Cf_apply {nb nl : ℕ} (branch : Fin nl → Branch) (l : Fin nl) (p : Fin nb) :
    Cf nb branch l p = if (branch l).fbus = p.val then 1 else 0 := by
  show (∑ k : Fin nl, if k.val = l.val ∧ (branch k).fbus = p.val then (1 : CC) else 0) = _
  exact sum_fin_ite l _ _

theorem Ct_apply {nb nl : ℕ} (branch : Fin nl → Branch) (l : Fin nl) (p : Fin nb) :
    Ct nb branch l p = if (branch l).tbus = p.val then 1 else 0 := by
  show (∑ k : Fin nl, if k.val = l.val ∧ (branch k).tbus = p.val then (1 : CC) else 0) = _
  exact sum_fin_ite l _ _

theorem Yfm_apply {nb nl : ℕ} (branch : Fin nl → Branch) (l : Fin nl) (q : Fin nb) :
    Yfm nb branch l q
      = (if (branch l).fbus = q.val then Yff (branch l) else 0)
        + (if (branch l).tbus = q.val then Yft (branch l) else 0) := by
  show (∑ k : Fin nl ⊕ Fin nl, _) = _
  rw [Fintype.sum_sum_type]
  simp only [Sum.elim_inl, Sum.elim_inr]
  rw [sum_fin_ite l _ _, sum_fin_ite l _ _]

theorem Ytm_apply {nb nl : ℕ} (branch : Fin nl → Branch) (l : Fin nl) (q : Fin nb) :
    Ytm nb branch l q
      = (if (branch l).fbus = q.val then Ytf (branch l) else 0)
        + (if (branch l).tbus = q.val then Ytt (branch l) else 0) := by
  show (∑ k : Fin nl ⊕ Fin nl, _) = _
  rw [Fintype.sum_sum_type]
  simp only [Sum.elim_inl, Sum.elim_inr]
  rw [sum_fin_ite l _ _, sum_fin_ite l _ _]

theorem YshDiag_apply (baseMVA : ℚ) {nb : ℕ} (bus : Fin nb → Bus) (p q : Fin nb) :
    YshDiag baseMVA bus p q = if p = q then Ysh baseMVA (bus p) else 0 := by
  show (∑ k : Fin nb, if k.val = p.val ∧ k.val = q.val then Ysh baseMVA (bus k) else 0) = _
  rw [sum_fin_ite p _ _]
  rcases eq_or_ne p q with h | h
  · simp [h]
  · rw [if_neg (fun hv => h (Fin.val_injective hv)), if_neg h]

theorem mul_row_eq (br : Branch) (p q : ℕ) :
    (if br.fbus = p then (1 : CC) else 0)
        * ((if br.fbus = q then Yff br else 0) + (if br.tbus = q then Yft br else 0))
      + (if br.tbus = p then (1 : CC) else 0)
        * ((if br.fbus = q then Ytf br else 0) + (if br.tbus = q then Ytt br else 0))
      = branchContrib br p q := by
  unfold branchContrib
  have hA : ∀ (c : Prop) (inst : Decidable c) (X : CC),
      (if c then (1 : CC) else 0) * X = if c then X else 0 := by
    intro c inst X
    split <;> simp
  have hB : ∀ (c : Prop) (inst : Decidable c) (a b : CC),
      (if c then a + b else 0) = (if c then a else 0) + (if c then b else 0) := by
    intro c inst a b
    split <;> simp
  rw [hA, hA, hB, hB, ← ite_and, ← ite_and, ← ite_and, ← ite_and]
  ring

/-- Entrywise description of the assembled `Ybus`. -/
theorem Ybus_apply (baseMVA : ℚ) {nb nl : ℕ} (bus : Fin nb → Bus)
    (branch : Fin nl → Branch) (p q : Fin nb) :
    (makeYbus baseMVA bus branch).Ybus p q
      = (∑ l, branchContrib (branch l) p.val q.val)
        + if p = q then Ysh baseMVA (bus p) else 0 := by
  show (Matrix.transpose (Cf nb branch) * Yfm nb branch
      + Matrix.transpose (Ct nb branch) * Ytm nb branch + YshDiag baseMVA bus) p q = _
  rw [Matrix.add_apply, Matrix.add_apply, Matrix.mul_apply, Matrix.mul_apply,
    YshDiag_apply]
  simp only [Matrix.transpose_apply, Cf_apply, Ct_apply, Yfm_apply, Ytm_apply]
  rw [← Finset.sum_add_distrib]
  congr 1
  exact Finset.sum_congr rfl fun l _ => mul_row_eq (branch l) p.val q.val

theorem shiftPhasor_zero : shiftPhasor 0 = 1 := by
  unfold shiftPhasor cosDeg sinDeg
  norm_num
  rfl

theorem conj_ofQ (q : ℚ) : conj (ofQ q) = ofQ q := by
  ext <;> simp

theorem ofQ_one : ofQ 1 = 1 := rfl

theorem ofQ_zero : ofQ 0 = 0 := rfl

/-- With a zero phase-shift angle the effective tap ratio is the real
(rational) tap magnitude. -/
theorem tapRatio_shift_zero {br : Branch} (h : br.shift = 0) :
    tapRatio br = ofQ (if br.tap ≠ 0 then br.tap else 1) := by
  unfold tapRatio
  rw [h, shiftPhasor_zero, mul_one]

theorem conj_tapRatio_shift_zero {br : Branch} (h : br.shift = 0) :
    conj (tapRatio br) = tapRatio br := by
  rw [tapRatio_shift_zero h, conj_ofQ]

/-- With a zero phase-shift angle the two off-diagonal branch terms agree. -/
theorem Yft_eq_Ytf_shift_zero {br : Branch} (h : br.shift = 0) :
    Yft br = Ytf br := by
  unfold Yft Ytf
  rw [conj_tapRatio_shift_zero h]

/-- A unit (or defaulted) tap with zero shift gives tap ratio 1. -/
theorem tapRatio_one {br : Branch} (ht : br.tap = 1 ∨ br.tap = 0)
    (hs : br.shift = 0) : tapRatio br = 1 := by
  rw [tapRatio_shift_zero hs]
  rcases ht with h | h <;> simp [h, ofQ_one]

/-- An out-of-service branch with nonzero impedance has zero series
admittance and four zero admittance terms. The guard `(R, X) ≠ (0, 0)` keeps
the statement faithful to the source: there `0 / (0 + 0j)` is NaN, not zero
(this model's total division would make the unguarded statement provable,
but only through the junk value `0/0 = 0`). Under the guard the divisor is a
nonzero complex number, for which `0 / z = 0` holds in IEEE arithmetic and in
this model alike. -/
theorem status_zero_terms {br : Branch} (h : br.status = 0)
    (hrx : br.r ≠ 0 ∨ br.x ≠ 0) :
    seriesY br = 0 ∧ Ytt br = 0 ∧ Yff br = 0 ∧ Yft br = 0 ∧ Ytf br = 0 := by
  have hy : seriesY br = 0 := by
    unfold seriesY
    rw [h, ofQ_zero, zero_div]
  have hc : chargeBc br = 0 := by
    unfold chargeBc
    rw [h, zero_mul]
  have htt : Ytt br = 0 := by
    unfold Ytt
    rw [hy, hc, ofQ_zero, mul_zero, zero_div, add_zero]
  exact ⟨hy, htt, by unfold Yff; rw [htt, zero_div],
    by unfold Yft; rw [hy, neg_zero, zero_div],
    by unfold Ytf; rw [hy, neg_zero, zero_div]⟩

/-- A branch whose off-diagonal terms agree contributes symmetrically. -/
theorem contrib_symm {br : Branch} (h : Yft br = Ytf br) (p q : ℕ) :
    branchContrib br q p = branchContrib br p q := by
  unfold branchContrib
  rw [h]
  have hcomm : ∀ (a b : Prop) (i1 : Decidable a) (i2 : Decidable b) (z : CC),
      (if a ∧ b then z else 0) = (if b ∧ a then z else 0) := by
    intro a b i1 i2 z
    by_cases ha : a <;> by_cases hb : b <;> simp [ha, hb]
  rw [hcomm (br.fbus = q) (br.fbus = p), hcomm (br.fbus = q) (br.tbus = p),
    hcomm (br.tbus = q) (br.fbus = p), hcomm (br.tbus = q) (br.tbus = p)]
  ring

/-- C1: for every branch, `makeYbus` computes the four pi-model admittance
terms as `Ytt = Ys + j·Bc/2`, `Yff = Ytt / (tap · conj tap)`,
`Yft = -Ys / conj tap`, `Ytf = -Ys / tap`, where the effective tap ratio is
the branch's tap field with 1.0 substituted when the stored value is zero,
multiplied by the unit phasor of the shift angle. -/
theorem C1_branch_admittance_terms (br : Branch) :
    tapRatio br = tapClaim br
    ∧ seriesY br = ofQ br.status / ⟨br.r, br.x⟩
    ∧ Ytt br = seriesY br + I * ofQ (br.status * br.b) / 2
    ∧ Yff br = Ytt br / (tapClaim br * conj (tapClaim br))
    ∧ Yft br = -seriesY br / conj (tapClaim br)
    ∧ Ytf br = -seriesY br / tapClaim br := by
  have ht : tapRatio br = tapClaim br := by
    unfold tapRatio tapClaim
    by_cases h : br.tap = 0 <;> simp [h]
  refine ⟨ht, rfl, rfl, ?_, ?_, ?_⟩ <;> rw [← ht] <;> rfl

/-- C3: the `Ybus` assembled through the incidence-matrix product
`Cf.T * Yf + Ct.T * Yt + diag(Ysh)` equals the matrix obtained by
scatter-adding each branch's four admittance terms into the
(from,from), (from,to), (to,from), (to,to) entries and adding the shunt
diagonal, duplicates accumulating additively. -/
theorem C3_Ybus_scatter_equiv (baseMVA : ℚ) {nb nl : ℕ} (bus : Fin nb → Bus)
    (branch : Fin nl → Branch) :
    (makeYbus baseMVA bus branch).Ybus = scatterYbus baseMVA bus branch := by
  funext p q
  rw [Ybus_apply]
  rfl

/-- C7 counterexample: a zero-status branch does NOT contribute zero
admittance "regardless of its R and X values". At `R = X = 0` its series
admittance is still computed by the unguarded division
`Ys = stat / (branch[:, BR_R] + 1j * branch[:, BR_X])` — here literally
`0 / (0 + 0j)`, which in the source's IEEE arithmetic is NaN and contaminates
Ytt, Yff, Yft, Ytf and hence Yf, Yt and Ybus (so Ybus is not the shunt
diagonal there). This exact model's total division evaluates the same
expression to the junk value 0, so the failure is exhibited as the literal
division by complex zero rather than as a non-finite entry. -/
theorem C7_counterexample :
    (brS0RX0 0).status = 0 ∧ (brS0RX0 0).r = 0 ∧ (brS0RX0 0).x = 0
    ∧ seriesY (brS0RX0 0) = ofQ 0 / 0 :=
  ⟨rfl, rfl, rfl, rfl⟩

/-- C7 amended: a branch with zero status and `(R, X) ≠ (0, 0)` contributes
zero admittance regardless of the nonzero impedance values; consequently a
branch table with all-zero status flags in which no branch has `R = X = 0`
yields `Ybus = diag(Ysh)` and all-zero `Yf`, `Yt`. (Without the guard the
source produces NaN contributions from `0 / (0 + 0j)`; see the
counterexample.) -/
theorem C7_status_zero_guarded (baseMVA : ℚ) {nb nl : ℕ} (bus : Fin nb → Bus)
    (branch : Fin nl → Branch) (h : ∀ l, (branch l).status = 0)
    (hrx : ∀ l, (branch l).r ≠ 0 ∨ (branch l).x ≠ 0) :
    (makeYbus baseMVA bus branch).Ybus
        = Matrix.diagonal (fun i => Ysh baseMVA (bus i))
    ∧ (makeYbus baseMVA bus branch).Yf = 0
    ∧ (makeYbus baseMVA bus branch).Yt = 0 := by
  have hz : ∀ l, Yff (branch l) = 0 ∧ Yft (branch l) = 0
      ∧ Ytf (branch l) = 0 ∧ Ytt (branch l) = 0 := by
    intro l
    obtain ⟨-, h2, h3, h4, h5⟩ := status_zero_terms (h l) (hrx l)
    exact ⟨h3, h4, h5, h2⟩
  refine ⟨?_, ?_, ?_⟩
  · funext p q
    rw [Ybus_apply]
    have hc : ∀ l, branchContrib (branch l) p.val q.val = 0 := by
      intro l
      unfold branchContrib
      rw [(hz l).1, (hz l).2.1, (hz l).2.2.1, (hz l).2.2.2]
      simp
    rw [Finset.sum_congr rfl fun l _ => hc l, Finset.sum_const, smul_zero,
      zero_add, Matrix.diagonal_apply]
  · show Yfm nb branch = 0
    funext l q
    rw [Yfm_apply, (hz l).1, (hz l).2.1]
    simp
  · show Ytm nb branch = 0
    funext l q
    rw [Ytm_apply, (hz l).2.2.1, (hz l).2.2.2]
    simp

/-- C7 witness: the guarded all-zero-status conclusion evaluated on a
concrete two-bus network with one out-of-service branch of nonzero
impedance. -/
theorem C7_status_zero_guarded_witness :
    ((∀ l : Fin 1, (brStat0 l).status = 0)
      ∧ (∀ l : Fin 1, (brStat0 l).r ≠ 0 ∨ (brStat0 l).x ≠ 0))
    ∧ ((makeYbus 100 busW2 brStat0).Ybus
          = Matrix.diagonal (fun i => Ysh 100 (busW2 i))
      ∧ (makeYbus 100 busW2 brStat0).Yf = 0
      ∧ (makeYbus 100 busW2 brStat0).Yt = 0) :=
  ⟨⟨fun _ => rfl, fun _ => Or.inl one_ne_zero⟩,
    C7_status_zero_guarded 100 busW2 brStat0 (fun _ => rfl)
      fun _ => Or.inl one_ne_zero⟩

/-- C8: with no phase shift, each unit-tap (or defaulted-tap) branch has
`Yff = Ytt = Ys + j·Bc/2` and `Yft = Ytf = -Ys`, and `Ybus` is symmetric. -/
theorem C8_no_shift_symmetric (baseMVA : ℚ) {nb nl : ℕ} (bus : Fin nb → Bus)
    (branch : Fin nl → Branch) (hshift : ∀ l, (branch l).shift = 0) :
    (∀ l, ((branch l).tap = 1 ∨ (branch l).tap = 0) →
      Yff (branch l) = Ytt (branch l)
        ∧ Ytt (branch l) = seriesY (branch l) + I * ofQ (chargeBc (branch l)) / 2
        ∧ Yft (branch l) = -seriesY (branch l)
        ∧ Ytf (branch l) = -seriesY (branch l))
    ∧ Matrix.transpose (makeYbus baseMVA bus branch).Ybus
        = (makeYbus baseMVA bus branch).Ybus := by
  constructor
  · intro l ht
    have h1 : tapRatio (branch l) = 1 := tapRatio_one ht (hshift l)
    have hc : conj (1 : CC) = 1 := by ext <;> simp
    refine ⟨?_, rfl, ?_, ?_⟩
    · unfold Yff
      rw [h1, hc, mul_one, div_one]
    · unfold Yft
      rw [h1, hc, div_one]
    · unfold Ytf
      rw [h1, div_one]
  · funext p q
    rw [Matrix.transpose_apply, Ybus_apply, Ybus_apply]
    rw [Finset.sum_congr rfl fun l _ =>
      contrib_symm (Yft_eq_Ytf_shift_zero (hshift l)) p.val q.val]
    congr 1
    rcases eq_or_ne p q with he | he
    · rw [he]
    · rw [if_neg fun hh => he hh.symm, if_neg he]

/-- C8 witness: the no-shift conclusion evaluated on a concrete two-bus
network with a single unit-tap branch. -/
theorem C8_no_shift_symmetric_witness :
    (∀ l : Fin 1, (brW1 l).shift = 0)
    ∧ ((∀ l, ((brW1 l).tap = 1 ∨ (brW1 l).tap = 0) →
        Yff (brW1 l) = Ytt (brW1 l)
          ∧ Ytt (brW1 l) = seriesY (brW1 l) + I * ofQ (chargeBc (brW1 l)) / 2
          ∧ Yft (brW1 l) = -seriesY (brW1 l)
          ∧ Ytf (brW1 l) = -seriesY (brW1 l))
      ∧ Matrix.transpose (makeYbus 100 busW2 brW1).Ybus
          = (makeYbus 100 busW2 brW1).Ybus) :=
  ⟨fun _ => rfl, C8_no_shift_symmetric 100 busW2 brW1 fun _ => rfl⟩

/-- C9: a second branch identical to an existing one doubles the admittance
contribution at the affected `Ybus` entries, and each of its `Yf`/`Yt` rows
equals the single branch's row. -/
theorem C9_parallel_branches_double (baseMVA : ℚ) {nb : ℕ} (bus : Fin nb → Bus)
    (br : Branch) :
    (∀ p q : Fin nb,
      (makeYbus baseMVA bus ![br, br]).Ybus p q
          - (if p = q then Ysh baseMVA (bus p) else 0)
        = 2 * ((makeYbus baseMVA bus ![br]).Ybus p q
          - (if p = q then Ysh baseMVA (bus p) else 0)))
    ∧ (∀ (i : Fin 2) (q : Fin nb),
        (makeYbus baseMVA bus ![br, br]).Yf i q
          = (makeYbus baseMVA bus ![br]).Yf 0 q)
    ∧ (∀ (i : Fin 2) (q : Fin nb),
        (makeYbus baseMVA bus ![br, br]).Yt i q
          = (makeYbus baseMVA bus ![br]).Yt 0 q) := by
  have hbb : ∀ i : Fin 2, (![br, br] : Fin 2 → Branch) i = br := by
    intro i
    fin_cases i <;> rfl
  have hb1 : (![br] : Fin 1 → Branch) 0 = br := rfl
  refine ⟨?_, ?_, ?_⟩
  · intro p q
    rw [Ybus_apply, Ybus_apply, Fin.sum_univ_two, Fin.sum_univ_one, hbb 0, hbb 1,
      hb1]
    ring
  · intro i q
    show Yfm nb ![br, br] i q = Yfm nb ![br] 0 q
    rw [Yfm_apply, Yfm_apply, hbb i, hb1]
  · intro i q
    show Ytm nb ![br, br] i q = Ytm nb ![br] 0 q
    rw [Ytm_apply, Ytm_apply, hbb i, hb1]

/-- C2: for every square complex `Ybus` and voltage vector with no
zero-magnitude entry, `dSbus_dV` returns exactly the claimed pair
`dS/dVm = diag(V)·conj(Ybus·diag(V/|V|)) + conj(diag(Ybus·V))·diag(V/|V|)`
and `dS/dVa = j·diag(V)·conj(diag(Ybus·V) − Ybus·diag(V))`. -/
theorem C2_dSbus_dV_formulas {n : ℕ} (Ybus : Matrix (Fin n) (Fin n) CC)
    (V : Fin n → CC) (h : ∀ i, V i ≠ 0) :
    dSbus_dV Ybus V = (dSdVmClaim Ybus V, dSdVaClaim Ybus V) := rfl

/-- C2 witness: the formula pair evaluated on a concrete 1-bus system with a
nonzero voltage. -/
theorem C2_dSbus_dV_formulas_witness :
    (∀ i : Fin 1, VW1 i ≠ 0)
    ∧ dSbus_dV YbW1 VW1 = (dSdVmClaim YbW1 VW1, dSdVaClaim YbW1 VW1) :=
  ⟨fun _ => by norm_num [VW1, CC.ext_iff],
    C2_dSbus_dV_formulas YbW1 VW1 fun _ => by norm_num [VW1, CC.ext_iff]⟩

/-- C10: every row of the returned dS/dVa sums to zero — multiplying it by
the all-ones vector gives the zero vector, because
`(diag(Ybus·V) − Ybus·diag(V))` annihilates the all-ones vector. -/
theorem C10_dSdVa_rows_sum_zero {n : ℕ} (Ybus : Matrix (Fin n) (Fin n) CC)
    (V : Fin n → CC) (h : ∀ i, V i ≠ 0) :
    Matrix.mulVec (dSbus_dV Ybus V).2 (fun _ => (1 : CC)) = 0 := by
  funext i
  have hentry : ∀ q, (dSbus_dV Ybus V).2 i q
      = I * (V i * conj ((if i = q then Ybus.mulVec V i else 0)
          - Ybus i q * V q)) := by
    intro q
    show (I • (Matrix.diagonal V
        * conjM (Matrix.diagonal (Ybus.mulVec V) - Ybus * Matrix.diagonal V))) i q = _
    rw [Matrix.smul_apply, smul_eq_mul, Matrix.diagonal_mul]
    congr 2
    show conj ((Matrix.diagonal (Ybus.mulVec V) - Ybus * Matrix.diagonal V) i q) = _
    rw [Matrix.sub_apply, Matrix.diagonal_apply, Matrix.mul_diagonal]
  show (∑ q, (dSbus_dV Ybus V).2 i q * (1 : CC)) = 0
  have hsum : (∑ q, ((if i = q then Ybus.mulVec V i else 0) - Ybus i q * V q))
      = 0 := by
    rw [Finset.sum_sub_distrib, Finset.sum_ite_eq]
    simp only [Finset.mem_univ, if_true]
    have hmv : Ybus.mulVec V i = ∑ q, Ybus i q * V q := rfl
    rw [← hmv, sub_self]
  calc (∑ q, (dSbus_dV Ybus V).2 i q * (1 : CC))
      = ∑ q, I * (V i * conj ((if i = q then Ybus.mulVec V i else 0)
          - Ybus i q * V q)) := by
        refine Finset.sum_congr rfl fun q _ => ?_
        rw [mul_one, hentry q]
    _ = I * (V i * conj (∑ q, ((if i = q then Ybus.mulVec V i else 0)
          - Ybus i q * V q))) := by
        rw [← Finset.mul_sum, ← Finset.mul_sum, conj_sum]
    _ = 0 := by
        rw [hsum, conj_zero, mul_zero, mul_zero]

/-- C10 witness: the zero row-sum conclusion evaluated on a concrete 1-bus
system with a nonzero voltage. -/
theorem C10_dSdVa_rows_sum_zero_witness :
    (∀ i : Fin 1, VW1 i ≠ 0)
    ∧ Matrix.mulVec (dSbus_dV YbW1 VW1).2 (fun _ => (1 : CC)) = 0 :=
  ⟨fun _ => by norm_num [VW1, CC.ext_iff],
    C10_dSdVa_rows_sum_zero YbW1 VW1 fun _ => by norm_num [VW1, CC.ext_iff]⟩

/-- C4 counterexample: on the bus table with identifiers `[0, 2, 1]` the
source detects the misalignment (the stderr warning fires) but still
produces and returns the fully assembled matrices — here with concrete
nonzero entries — so no data-integrity error stops it before returning. -/
theorem C4_counterexample :
    busOrderWarn busMis3 = true
    ∧ (makeYbus 100 busMis3 brW1).warning = true
    ∧ (makeYbus 100 busMis3 brW1).Ybus 0 0 = ⟨1/2, -1/2⟩
    ∧ (makeYbus 100 busMis3 brW1).Ybus 1 0 = ⟨-1/2, 1/2⟩
    ∧ (makeYbus 100 busMis3 brW1).Yf 0 0 = ⟨1/2, -1/2⟩
    ∧ (makeYbus 100 busMis3 brW1).Yf 0 1 = ⟨-1/2, 1/2⟩ := by
  have hw : busOrderWarn busMis3 = true := by
    rw [busOrderWarn, decide_eq_true_eq]
    refine ⟨1, ?_⟩
    norm_num [busMis3]
  refine ⟨hw, hw, ?_, ?_, ?_, ?_⟩
  · rw [Ybus_apply]
    norm_num [Fin.sum_univ_one, branchContrib, brW1, busMis3, Yff, Yft, Ytf,
      Ytt, seriesY, chargeBc, tapRatio, shiftPhasor, cosDeg, sinDeg, Ysh, conj,
      ofQ, CC.ext_iff, CC.normSq, div_eq_mul_inv]
  · rw [Ybus_apply]
    norm_num [Fin.sum_univ_one, branchContrib, brW1, busMis3, Yff, Yft, Ytf,
      Ytt, seriesY, chargeBc, tapRatio, shiftPhasor, cosDeg, sinDeg, Ysh, conj,
      ofQ, CC.ext_iff, CC.normSq, div_eq_mul_inv]
  · show Yfm 3 brW1 0 0 = _
    rw [Yfm_apply]
    norm_num [brW1, Yff, Yft, Ytt, seriesY, chargeBc, tapRatio, shiftPhasor,
      cosDeg, sinDeg, conj, ofQ, CC.ext_iff, CC.normSq, div_eq_mul_inv]
  · show Yfm 3 brW1 0 1 = _
    rw [Yfm_apply]
    norm_num [brW1, Yff, Yft, Ytt, seriesY, chargeBc, tapRatio, shiftPhasor,
      cosDeg, sinDeg, conj, ofQ, CC.ext_iff, CC.normSq, div_eq_mul_inv]

/-- C4 amended: on a misaligned bus table `makeYbus` raises its warning flag
(the stderr write) but proceeds regardless, returning exactly the matrices it
would return for the identifier-corrected table — the identifiers influence
nothing but the warning. -/
theorem C4_warn_but_proceed (baseMVA : ℚ) {nb nl : ℕ} (bus : Fin nb → Bus)
    (branch : Fin nl → Branch) (h : ∃ i, (bus i).busI ≠ (i.val : ℚ)) :
    (makeYbus baseMVA bus branch).warning = true
    ∧ (makeYbus baseMVA bus branch).Ybus
        = (makeYbus baseMVA (fun i => ⟨(i.val : ℚ), (bus i).gs, (bus i).bs⟩)
            branch).Ybus
    ∧ (makeYbus baseMVA bus branch).Yf
        = (makeYbus baseMVA (fun i => ⟨(i.val : ℚ), (bus i).gs, (bus i).bs⟩)
            branch).Yf
    ∧ (makeYbus baseMVA bus branch).Yt
        = (makeYbus baseMVA (fun i => ⟨(i.val : ℚ), (bus i).gs, (bus i).bs⟩)
            branch).Yt := by
  refine ⟨?_, rfl, rfl, rfl⟩
  show busOrderWarn bus = true
  rw [busOrderWarn, decide_eq_true_eq]
  exact h

/-- C4 witness: the amended statement applied to the concrete `[0, 2, 1]`
table. -/
theorem C4_warn_but_proceed_witness :
    (∃ i : Fin 3, (busMis3 i).busI ≠ (i.val : ℚ))
    ∧ ((makeYbus 100 busMis3 brW1).warning = true
      ∧ (makeYbus 100 busMis3 brW1).Ybus
          = (makeYbus 100 (fun i => ⟨(i.val : ℚ), (busMis3 i).gs, (busMis3 i).bs⟩)
              brW1).Ybus
      ∧ (makeYbus 100 busMis3 brW1).Yf
          = (makeYbus 100 (fun i => ⟨(i.val : ℚ), (busMis3 i).gs, (busMis3 i).bs⟩)
              brW1).Yf
      ∧ (makeYbus 100 busMis3 brW1).Yt
          = (makeYbus 100 (fun i => ⟨(i.val : ℚ), (busMis3 i).gs, (busMis3 i).bs⟩)
              brW1).Yt) :=
  ⟨⟨1, by norm_num [busMis3]⟩,
    C4_warn_but_proceed 100 busMis3 brW1 ⟨1, by norm_num [busMis3]⟩⟩

/-- C5 counterexample: for an in-service branch with `R = X = 0` the source
performs no check at all: the warning flag stays false (nothing is reported),
the series admittance is computed as a literal division by zero (non-finite
in the source's IEEE arithmetic, the junk value 0 in this exact model) and
the matrices are produced and returned. -/
theorem C5_counterexample :
    (brRX0 0).status = 1 ∧ (brRX0 0).r = 0 ∧ (brRX0 0).x = 0
    ∧ (makeYbus 100 busZ2 brRX0).warning = false
    ∧ seriesY (brRX0 0) = ofQ 1 / 0
    ∧ (makeYbus 100 busZ2 brRX0).Ybus = 0 := by
  refine ⟨rfl, rfl, rfl, ?_, rfl, ?_⟩
  · show busOrderWarn busZ2 = false
    rw [busOrderWarn, decide_eq_false_iff_not]
    rintro ⟨i, hi⟩
    exact hi rfl
  · funext p q
    rw [Ybus_apply]
    fin_cases p <;> fin_cases q <;>
      norm_num [Fin.sum_univ_one, branchContrib, brRX0, busZ2, Yff, Yft, Ytf,
        Ytt, seriesY, chargeBc, tapRatio, shiftPhasor, cosDeg, sinDeg, Ysh,
        conj, ofQ, CC.ext_iff, CC.normSq, div_eq_mul_inv]

/-- C5 amended: `makeYbus` has no numerical-precondition error path for an
in-service branch with `R = X = 0`: the only thing it ever reports is the
bus-order warning, and the branch's series admittance is computed by the
unguarded division `status / (R + jX)` — at `R = X = 0` a division by the
complex zero. -/
theorem C5_no_rx_check (baseMVA : ℚ) {nb nl : ℕ} (bus : Fin nb → Bus)
    (branch : Fin nl → Branch) (l : Fin nl) (h1 : (branch l).status ≠ 0)
    (h2 : (branch l).r = 0) (h3 : (branch l).x = 0) :
    (makeYbus baseMVA bus branch).warning = busOrderWarn bus
    ∧ seriesY (branch l) = ofQ (branch l).status * (0 : CC)⁻¹ := by
  refine ⟨rfl, ?_⟩
  have hz : (⟨(branch l).r, (branch l).x⟩ : CC) = 0 := by
    ext <;> simp [h2, h3]
  unfold seriesY
  rw [hz, div_eq_mul_inv]

/-- C5 witness: the amended statement applied to a concrete in-service
`R = X = 0` branch. -/
theorem C5_no_rx_check_witness :
    ((brRX0 0).status ≠ 0 ∧ (brRX0 0).r = 0 ∧ (brRX0 0).x = 0)
    ∧ ((makeYbus 100 busZ2 brRX0).warning = busOrderWarn busZ2
      ∧ seriesY (brRX0 0) = ofQ (brRX0 0).status * (0 : CC)⁻¹) :=
  ⟨⟨by norm_num [brRX0], rfl, rfl⟩,
    C5_no_rx_check 100 busZ2 brRX0 0 (by norm_num [brRX0]) rfl rfl⟩

/-- C6 counterexample: on a voltage vector with a zero-magnitude entry,
`dSbus_dV` raises nothing: it returns the two matrices (here concretely the
zero matrices, the zero-divisions having produced the exact model's junk
value 0 where IEEE arithmetic would produce NaN). -/
theorem C6_counterexample :
    VZ1 0 = 0 ∧ cabs (VZ1 0) = 0 ∧ dSbus_dV YbW1 VZ1 = (0, 0) := by
  refine ⟨rfl, ?_, ?_⟩
  · show ratSqrt (normSq 0) = 0
    norm_num [normSq, ratSqrt]
  · refine Prod.ext ?_ ?_ <;> funext i j <;> fin_cases i <;> fin_cases j <;>
      norm_num [dSbus_dV, Matrix.mul_apply, Fin.sum_univ_one,
        Matrix.diagonal_apply, conjM, Matrix.map_apply, Matrix.sub_apply,
        Matrix.smul_apply, Matrix.mulVec, Matrix.dotProduct, Vnorm, VZ1, YbW1,
        conj, ofQ, cabs, ratSqrt, normSq, CC.ext_iff, div_eq_mul_inv]

/-- C6 amended: `dSbus_dV` has no zero-magnitude check: even with a zero
voltage entry it returns exactly the pair given by its formulas, the
degenerate normalized entry `V i / |V i|` evaluating to the division-by-zero
junk value (NaN in the source's IEEE arithmetic) instead of any error. -/
theorem C6_no_zero_voltage_check {n : ℕ} (Ybus : Matrix (Fin n) (Fin n) CC)
    (V : Fin n → CC) (i : Fin n) (h : V i = 0) :
    Vnorm V i = 0
    ∧ dSbus_dV Ybus V
      = (Matrix.diagonal V * conjM (Ybus * Matrix.diagonal (Vnorm V))
          + conjM (Matrix.diagonal (Ybus.mulVec V)) * Matrix.diagonal (Vnorm V),
        I • (Matrix.diagonal V
          * conjM (Matrix.diagonal (Ybus.mulVec V) - Ybus * Matrix.diagonal V))) := by
  refine ⟨?_, rfl⟩
  show V i / ofQ (cabs (V i)) = 0
  rw [h, zero_div]

/-- C6 witness: the amended statement applied to the concrete zero-entry
voltage vector. -/
theorem C6_no_zero_voltage_check_witness :
    VZ1 0 = 0
    ∧ (Vnorm VZ1 0 = 0
      ∧ dSbus_dV YbW1 VZ1
        = (Matrix.diagonal VZ1 * conjM (YbW1 * Matrix.diagonal (Vnorm VZ1))
            + conjM (Matrix.diagonal (YbW1.mulVec VZ1))
              * Matrix.diagonal (Vnorm VZ1),
          I • (Matrix.diagonal VZ1
            * conjM (Matrix.diagonal (YbW1.mulVec VZ1)
              - YbW1 * Matrix.diagonal VZ1)))) :=
  ⟨rfl, C6_no_zero_voltage_check YbW1 VZ1 0 rfl⟩

end Pypower
